import Mathlib

/-!
Verification development for the pydian core (dicts.py, mapping.py).

The tree data model follows spec section 3: a recursive union of mappings
with string keys, sequences, scalars and null, extended with the two
sentinel variants the engine interprets (the relative-prune directive
DROP / ROL and the literal wrapper KEEP, both Python enums and hence
always truthy).  Pure functions from src/pydian/dicts.py and
src/pydian/mapping.py are translated one by one; the external jmespath
query library, which is not part of the repository, is replaced by a
resolver modelled from the spec's selector grammar (sections 4.1-4.2).
-/

set_option maxHeartbeats 1000000

/-- Tree values. `drop lvl` embeds a DROP / RelativeObjectLevel enum member
with payload `lvl`; `keep v` embeds a KEEP enum member with payload `v`;
`tuple` mirrors the Python tuple produced by `_nested_get` for grouped keys. -/
inductive Value where
  | null : Value
  | int : Int → Value
  | str : String → Value
  | bool : Bool → Value
  | list : List Value → Value
  | dict : List (String × Value) → Value
  | tuple : List Value → Value
  | drop : Int → Value
  | keep : Value → Value

/-- Python truthiness of a tree value.  Enum instances (DROP, KEEP) are
always truthy; containers are truthy iff non-empty. -/
def truthy : Value → Bool
  | .null => false
  | .int n => n != 0
  | .str s => s != ("")
  | .bool b => b
  | .list xs => !xs.isEmpty
  | .dict kvs => !kvs.isEmpty
  | .tuple xs => !xs.isEmpty
  | .drop _ => true
  | .keep _ => true

/-- Lookup in an insertion-ordered mapping (first match). -/
def dictGet : List (String × Value) → String → Option Value
  | [], _ => none
  | (k, v) :: rest, f => if k = f then some v else dictGet rest f

/-- Python dict assignment: update an existing key in place, else append. -/
def dictSet : List (String × Value) → String → Value → List (String × Value)
  | [], f, v => [(f, v)]
  | (k, w) :: rest, f, v => if k = f then (k, v) :: rest else (k, w) :: dictSet rest f v

/-- Python index normalisation: a negative index counts from the end. -/
def pyNorm (len : Nat) (n : Int) : Int :=
  if 0 ≤ n then n else (len : Int) + n

/-- Python list indexing `xs[n]`; `none` models the IndexError case. -/
def pyIdx (xs : List Value) (n : Int) : Option Value :=
  if 0 ≤ pyNorm xs.length n then xs.get? (pyNorm xs.length n).toNat else none

/-- Python list element assignment `xs[n] = v`; `none` models IndexError. -/
def pySet (xs : List Value) (n : Int) (v : Value) : Option (List Value) :=
  if 0 ≤ pyNorm xs.length n ∧ pyNorm xs.length n < (xs.length : Int) then
    some (xs.set (pyNorm xs.length n).toNat v)
  else none

/-- A token of a tokenized key path (`_get_tokenized_keypath` output). -/
inductive Tok where
  | str : String → Tok
  | int : Int → Tok
deriving DecidableEq, Repr

/-- Python `str.replace(c, d)` for single-character patterns, char-wise. -/
def replChar (c d : Char) (s : List Char) : List Char :=
  s.map (fun x => if x = c then d else x)

/-- Python `str.replace(c, "")` for a single-character pattern: deletion. -/
def delChar (c : Char) (s : List Char) : List Char :=
  s.filter (fun x => x ≠ c)

/-- Python `str.split(c)` for a single-character separator
(`"".split(c) = [""]`, trailing separators produce empty pieces). -/
def splitOnChar (c : Char) : List Char → List (List Char)
  | [] => [[]]
  | x :: rest =>
    if x = c then [] :: splitOnChar c rest
    else
      match splitOnChar c rest with
      | ys :: t => (x :: ys) :: t
      | [] => [[x]]

/-- Python `str.isnumeric` restricted to ASCII digits. -/
def isNumericChars (s : List Char) : Bool :=
  !s.isEmpty && s.all Char.isDigit

/-- Python `str.removeprefix("-")`. -/
def stripMinus (s : List Char) : List Char :=
  match s with
  | '-' :: rest => rest
  | s => s

/-- Value of a digit string. -/
def digitsVal (s : List Char) : Nat :=
  s.foldl (fun acc c => acc * 10 + (c.toNat - 48)) 0

/-- Python `int(k)` for the strings accepted by the tokenizer. -/
def parseIntChars (s : List Char) : Int :=
  match s with
  | '-' :: rest => -(digitsVal rest : Int)
  | s => (digitsVal s : Int)

/-- Model of `_get_tokenized_keypath`: brackets become dots, `]` is removed, and each
`.`-separated piece is an int token when numeric after stripping one minus. -/
def getTokenizedKeypath (key : String) : List Tok :=
  (splitOnChar ('.') (delChar (']') (replChar ('[') ('.') key.toList))).map
    (fun k =>
      if isNumericChars (stripMinus k) then Tok.int (parseIntChars k)
      else Tok.str (String.mk k))

/-- Selector tokens of the path grammar (spec section 4.1). -/
inductive Sel where
  | field : String → Sel
  | index : Int → Sel
  | wildcard : Sel
deriving DecidableEq, Repr

/-- Selector reading of a tokenized path piece: a `*` piece is a wildcard,
a numeric piece is an index, anything else is a field name. -/
def selOf : Tok → Sel
  | .str s => if s = ("*") then Sel.wildcard else Sel.field s
  | .int n => Sel.index n

/-- Modelled from the spec: the path resolver (spec section 4.2) standing in
for the external jmespath library, which is not part of the repository and
which the spec directs to be reimplemented internally.  A field indexes a
mapping (a miss resolves to null), an index selects from a sequence with
Python negative-index semantics (a miss resolves to null), and a wildcard
maps the remaining path over every element of the current sequence,
collecting one result per element (a per-element miss yields null for that
element).  Slices and multiselect groups are outside this modelled subset
and resolve like field misses. -/
def resolveToks (v : Value) (sels : List Sel) : Value :=
  match sels with
  | [] => v
  | Sel.field f :: rest =>
    match v with
    | .dict kvs =>
      match dictGet kvs f with
      | some c => resolveToks c rest
      | none => .null
    | _ => .null
  | Sel.index n :: rest =>
    match v with
    | .list xs =>
      match pyIdx xs n with
      | some c => resolveToks c rest
      | none => .null
    | _ => .null
  | Sel.wildcard :: rest =>
    match v with
    | .list xs => .list (xs.map (fun x => resolveToks x rest))
    | _ => .null

/-- Modelled from the spec: `jmespath.search(key, source)` replacement;
the key is tokenized exactly like `_get_tokenized_keypath` and read as
selectors. -/
def search (key : String) (source : Value) : Value :=
  resolveToks source ((getTokenizedKeypath key).map selOf)

/-- Python `key.endswith("[*]")`. -/
def endsWithStar (key : String) : Bool :=
  match key.toList.reverse with
  | ']' :: '*' :: '[' :: _ => true
  | _ => false

/-- Python `key.removesuffix("[*]")` under the `endsWithStar` guard. -/
def stripStar (key : String) : String :=
  String.mk (key.toList.take (key.toList.length - 3))

/-- Python `c in key` for a single character. -/
def hasChar (c : Char) (key : String) : Bool :=
  key.toList.contains c

/-- The raw resolution step of `_nested_get`: strip a trailing `[*]`,
detect `(`..`)` groups (converting them to bracket form and turning a list
result into a tuple), then query.  Group selectors themselves are outside
the modelled resolver subset (see `resolveToks`). -/
def nestedGetRaw (source : Value) (key : String) : Value :=
  let key1 := if endsWithStar key then stripStar key else key
  if hasChar ('(') key1 && hasChar (')') key1 then
    match search (String.mk (replChar (')') (']') (replChar ('(') ('[') key1.toList))) source with
    | Value.list xs => Value.tuple xs
    | r => r
  else search key1 source

/-- Model of `_nested_get(source, key, default)`: raw resolution, then per-element
default substitution on a list result, then whole-result default. -/
def nestedGet (source : Value) (key : String) (dflt : Value) : Value :=
  let res := nestedGetRaw source key
  let res :=
    match res with
    | Value.list xs =>
      Value.list (xs.map (fun r => match r with | Value.null => dflt | r => r))
    | r => r
  match res with
  | Value.null => dflt
  | r => r

/-- Modelled from the spec: `flatten_list` (pydian.lib.util is not under
src/) recursively flattens nested sequences into one flat sequence,
preserving order (spec section 4.2). -/
def flattenList : List Value → List Value
  | [] => []
  | Value.list ys :: rest => flattenList ys ++ flattenList rest
  | v :: rest => v :: flattenList rest

/-- A caller-supplied `apply` function together with its printable identity;
`Except.error` models the function raising. -/
structure ApplyFn where
  name : String
  fn : Value → Except String Value

/-- The RuntimeError raised by `get` when an `apply` function fails: it
carries the failing function's identity, the offending value, the key, and
the underlying error text. -/
structure ApplyError where
  fnName : String
  offending : Value
  atKey : String
  inner : String

/-- The `apply` loop of `get`: functions run left to right; a failure is
wrapped into an `ApplyError`; a null intermediate result stops the chain. -/
def applyChain (key : String) (v : Value) (fns : List ApplyFn) : Except ApplyError Value :=
  match fns with
  | [] => Except.ok v
  | f :: rest =>
    match f.fn v with
    | Except.error e => Except.error ⟨f.name, v, key, e⟩
    | Except.ok r =>
      match r with
      | Value.null => Except.ok Value.null
      | r => applyChain key r rest

/-- The wrapping step at the top of `get`: a list source is placed under
the synthetic root field `_` and the key gains the `_` front. -/
def wrapSrc : Value → String → Value × String
  | Value.list xs, key => (Value.dict [(("_"), Value.list xs)], ("_") ++ key)
  | s, key => (s, key)

namespace Pydian

/-- Model of `get(source, key, default, apply, only_if, drop_level, flatten)`.
A list source is wrapped under the synthetic root field `_` and the key is
adjusted.  A `drop_level` argument, being a DROP enum member, is always
truthy, so `Option Int` models it faithfully. -/
def get (source : Value) (key : String) (dflt : Value) (apply : List ApplyFn)
    (onlyIf : Option (Value → Bool)) (dropLevel : Option Int) (flatten : Bool) :
    Except ApplyError Value :=
  let srcKey : Value × String := wrapSrc source key
  let res := nestedGet srcKey.1 srcKey.2 dflt
  let res :=
    if flatten then
      match res with
      | Value.list xs => Value.list (flattenList xs)
      | r => r
    else res
  let res :=
    match onlyIf with
    | some p =>
      match res with
      | Value.null => Value.null
      | r => if p r then r else Value.null
    | none => res
  let chained : Except ApplyError Value :=
    match res with
    | Value.null => Except.ok Value.null
    | r => if apply.isEmpty then Except.ok r else applyChain srcKey.2 r apply
  match chained with
  | Except.error e => Except.error e
  | Except.ok r =>
    match r, dropLevel with
    | Value.null, some lvl => Except.ok (Value.drop lvl)
    | r, _ => Except.ok r

end Pydian

/-- Plain structural walk of a tokenized path (manual indexing); `none` is
a miss of any kind. -/
def walkGet : Value → List Tok → Option Value
  | v, [] => some v
  | Value.dict kvs, Tok.str f :: r =>
    match dictGet kvs f with
    | some c => walkGet c r
    | none => none
  | Value.list xs, Tok.int n :: r =>
    match pyIdx xs n with
    | some c => walkGet c r
    | none => none
  | _, _ => none

/-- Model of `_nested_set(source, tokenized_key_list, target)`.  The function walks
all but the last token and assigns at the last one; only IndexError is
caught (returning `Except.ok none`, Python's `None`); a KeyError or
TypeError from the walk propagates (`Except.error`).  The Python original
mutates in place and its single mutation is the final assignment, so the
functional reading below returns the updated root on success.  The data
model fixes mappings to string keys (spec section 3), so a final
assignment of an integer token into a mapping, which Python would admit by
creating a non-string key, falls outside the modelled state space and is
rendered as an error. -/
def nestedSet : Value → List Tok → Value → Except String (Option Value)
  | _, [], _ => Except.ok none
  | s, [k], v =>
    match s, k with
    | Value.dict kvs, Tok.str f => Except.ok (some (Value.dict (dictSet kvs f v)))
    | Value.list xs, Tok.int n =>
      match pySet xs n v with
      | some ys => Except.ok (some (Value.list ys))
      | none => Except.ok none
    | Value.dict _, Tok.int _ => Except.error ("TypeError")
    | Value.list _, Tok.str _ => Except.error ("TypeError")
    | _, _ => Except.error ("TypeError")
  | s, k :: rest, v =>
    match s, k with
    | Value.dict kvs, Tok.str f =>
      match dictGet kvs f with
      | some c =>
        (match nestedSet c rest v with
         | Except.ok (some c') => Except.ok (some (Value.dict (dictSet kvs f c')))
         | Except.ok none => Except.ok none
         | Except.error e => Except.error e)
      | none => Except.error ("KeyError")
    | Value.dict _, Tok.int _ => Except.error ("KeyError")
    | Value.list xs, Tok.int n =>
      match pyIdx xs n with
      | some c =>
        (match nestedSet c rest v with
         | Except.ok (some c') =>
           Except.ok (some (Value.list (xs.set (pyNorm xs.length n).toNat c')))
         | Except.ok none => Except.ok none
         | Except.error e => Except.error e)
      | none => Except.ok none
    | Value.list _, Tok.str _ => Except.error ("TypeError")
    | _, _ => Except.error ("TypeError")

/-- The walk of `_nested_set` raises IndexError exactly when an
intermediate sequence index is out of range, when the final assignment
target is a sequence and the index is out of range, or when the token list
itself is empty (`tokenized_key_list[-1]` on an empty tuple). -/
def hitsOOR : Value → List Tok → Bool
  | _, [] => true
  | s, [k] =>
    match s, k with
    | Value.list xs, Tok.int n =>
      !(decide (0 ≤ pyNorm xs.length n ∧ pyNorm xs.length n < (xs.length : Int)))
    | _, _ => false
  | s, k :: rest =>
    match s, k with
    | Value.dict kvs, Tok.str f =>
      match dictGet kvs f with
      | some c => hitsOOR c rest
      | none => false
    | Value.list xs, Tok.int n =>
      match pyIdx xs n with
      | some c => hitsOOR c rest
      | none => true
    | _, _ => false

/-- Python `t[:v]` on a tokenized path (for the DROP truncation
`curr_keypath[:v.value]`): a non-negative bound keeps that many leading
tokens (`[:0]` keeps none), a negative bound drops that many from the end,
clamped at zero. -/
def pyTakeSlice (xs : List Tok) (v : Int) : List Tok :=
  if 0 ≤ v then xs.take v.toNat else xs.take ((xs.length : Int) + v).toNat

/-- Error message of the DROP-level range check in `drop_keys`. -/
def dropLevelErrorMsg (lvl : Int) (key : String) : String :=
  ("Error: DROP level ") ++ toString lvl ++ (" at ") ++ key ++ (" is invalid")

/-- The loop of `drop_keys` over the requested keys, carrying the current
tree and the `seen_keys` set (modelled as a list of tokenized paths).  A
key already seen is skipped (the `else` branch re-adds it, a no-op).  For
an unseen key the current value is resolved; a falsy value skips the key
without recording it.  A truthy DROP value is range-checked (failing fast
with a RuntimeError), the path is truncated by its level (an emptied path
returns the empty mapping for the whole call), and the location is set to
null; note the Python code adds the *truncated* path to `seen_keys`, since
`curr_keypath` was reassigned.  `_nested_set` mutates in place and its
returned root is the same object as the current tree, so the walrus
truthiness test on `updated` cannot undo a successful assignment; the
functional reading keeps the updated tree exactly when the set succeeds. -/
def goDrop (res : Value) (seen : List (List Tok)) : List String → Except String Value
  | [] => Except.ok res
  | key :: rest =>
    let kp := getTokenizedKeypath key
    if kp ∈ seen then goDrop res seen rest
    else
      let v := nestedGet res key Value.null
      if truthy v then
        match v with
        | Value.drop lvl =>
          if 0 < lvl ∨ (kp.length : Int) < -lvl then
            Except.error (dropLevelErrorMsg lvl key)
          else
            let kp' := pyTakeSlice kp lvl
            if kp'.isEmpty then Except.ok (Value.dict [])
            else
              match nestedSet res kp' Value.null with
              | Except.error e => Except.error e
              | Except.ok (some t) => goDrop t (kp' :: seen) rest
              | Except.ok none => goDrop res (kp' :: seen) rest
        | _ =>
          match nestedSet res kp Value.null with
          | Except.error e => Except.error e
          | Except.ok (some t) => goDrop t (kp :: seen) rest
          | Except.ok none => goDrop res (kp :: seen) rest
      else goDrop res seen rest

/-- Model of `drop_keys(source, keys_to_drop)`. -/
def dropKeys (source : Value) (keys : List String) : Except String Value :=
  goDrop source [] keys

/-- The loop of `impute_enum_values` over the candidate keys.  The Python
code assigns `res = _nested_set(...)` directly, so a failed set turns the
running tree into `None` (here `none`), after which every later resolution
returns null and nothing further matches; a KeyError or TypeError from the
set propagates.  The candidate keys form a Python set; the list argument
fixes one iteration order. -/
def goImpute (r : Option Value) : List String → Except String (Option Value)
  | [] => Except.ok r
  | key :: rest =>
    match r with
    | none => goImpute none rest
    | some t =>
      match nestedGet t key Value.null with
      | Value.keep payload =>
        (match nestedSet t (getTokenizedKeypath key) payload with
         | Except.error e => Except.error e
         | Except.ok t' => goImpute t' rest)
      | _ => goImpute (some t) rest

/-- Model of `impute_enum_values(source, keys_to_impute)`. -/
def imputeEnumValues (source : Value) (keys : List String) : Except String (Option Value) :=
  goImpute (some source) keys

/-- Model of `isinstance(v, ROL)` / `isinstance(v, DROP)`: both enums are embedded
as the `Value.drop` variant. -/
def isROL : Value → Bool
  | Value.drop _ => true
  | _ => false

mutual

/-- Model of `Mapper._get_keys_to_drop_set` (mapping.py), returning the collected
key set as a list in walk order.  `goDropEntries` walks a mapping's items;
`goDropItems` walks a sequence's elements with their indices, and receives
`vList`, the whole sequence, because the Python code's final branch tests
`isinstance(v, ROL)` on the loop variable `v` (the sequence itself), not
on the element `item`. -/
def getKeysToDropSet : Value → String → List String
  | Value.dict kvs, kpfx => goDropEntries kvs kpfx
  | _, _ => []

/-- Walk the items of a mapping for `getKeysToDropSet`. -/
def goDropEntries : List (String × Value) → String → List String
  | [], _ => []
  | (k, v) :: rest, kpfx =>
    let curr := if kpfx ≠ ("") then kpfx ++ (".") ++ k else k
    (match v with
     | Value.dict kvs2 => goDropEntries kvs2 curr
     | Value.list items => goDropItems items 0 curr (Value.list items)
     | v' => if isROL v' then [curr] else []) ++ goDropEntries rest kpfx

/-- Walk the elements of a sequence for `getKeysToDropSet`. -/
def goDropItems : List Value → Nat → String → Value → List String
  | [], _, _, _ => []
  | item :: rest, i, curr, vList =>
    let indexed := curr ++ ("[") ++ toString i ++ ("]")
    (match item with
     | Value.dict kvs2 => goDropEntries kvs2 indexed
     | _ => if isROL vList then [indexed] else []) ++ goDropItems rest (i + 1) curr vList

end

/-- A key is simple when it has no trailing `[*]`, no group parentheses and
no wildcard piece: the form the orchestrator emits for pruning and
imputation.  For such keys resolution agrees with the manual token walk. -/
def simpleKey (key : String) : Bool :=
  !endsWithStar key && !(hasChar ('(') key && hasChar (')') key) &&
    (getTokenizedKeypath key).all (fun t => t != Tok.str ("*"))

/-- Two values with the same container constructor (the shape of a node
whose interior, but not itself, was rewritten by `nestedSet`). -/
def sameShape (w w' : Value) : Prop :=
  (∃ kvs kvs', w = Value.dict kvs ∧ w' = Value.dict kvs') ∨
  (∃ xs xs', w = Value.list xs ∧ w' = Value.list xs')

/-- The value has no KEEP wrapper at any walkable location. -/
def keepFreeAt (v : Value) : Prop := ∀ q p, walkGet v q ≠ some (Value.keep p)

/-- Every reachable KEEP wrapper in the tree wraps a keep-free payload:
KEEP enum payloads are plain literals, never further wrappers. -/
def plainKeepPayloads (t : Value) : Prop :=
  ∀ q p, walkGet t q = some (Value.keep p) → keepFreeAt p

theorem dictGet_dictSet_self (kvs : List (String × Value)) (f : String) (v : Value) :
    dictGet (dictSet kvs f v) f = some v := by
  induction kvs with
  | nil => simp [dictGet, dictSet]
  | cons kv rest ih =>
    obtain ⟨k, w⟩ := kv
    by_cases h : k = f
    · subst h; simp [dictGet, dictSet]
    · simp [dictGet, dictSet, h, ih]

theorem dictGet_dictSet_ne (kvs : List (String × Value)) (f f' : String) (v : Value)
    (h : f' ≠ f) : dictGet (dictSet kvs f v) f' = dictGet kvs f' := by
  induction kvs with
  | nil =>
    have hne : ¬(f = f') := fun hh => h (Eq.symm hh)
    simp [dictGet, dictSet, hne]
  | cons kv rest ih =>
    obtain ⟨k, w⟩ := kv
    by_cases hk : k = f
    · subst hk
      have : ¬(k = f') := fun hh => h (Eq.symm hh)
      simp [dictGet, dictSet, this]
    · simp only [dictSet, if_neg hk]
      by_cases hk' : k = f'
      · simp [dictGet, hk']
      · simp [dictGet, hk', ih]

theorem walkGet_append (a b : List Tok) (t : Value) :
    walkGet t (a ++ b) = (walkGet t a).bind (fun w => walkGet w b) := by
  induction a generalizing t with
  | nil => simp [walkGet]
  | cons x a ih =>
    cases t <;> cases x <;> simp [walkGet]
    case dict.str kvs f =>
      cases hd : dictGet kvs f <;> simp [hd, ih]
    case list.int xs n =>
      cases hd : pyIdx xs n <;> simp [hd, ih]

theorem mapNull_id (xs : List Value) :
    (xs.map fun r => match r with | Value.null => Value.null | r => r) = xs := by
  have : (fun r => match r with | Value.null => Value.null | r => r) = (id : Value → Value) := by
    funext r; cases r <;> rfl
  simp [this]

theorem resolve_eq_walk (toks : List Tok) (hs : ∀ x ∈ toks, x ≠ Tok.str ("*"))
    (v : Value) : resolveToks v (toks.map selOf) = (walkGet v toks).getD Value.null := by
  induction toks generalizing v with
  | nil => simp [resolveToks, walkGet]
  | cons x toks ih =>
    have hs' : ∀ y ∈ toks, y ≠ Tok.str ("*") := fun y hy => hs y (List.mem_cons_of_mem _ hy)
    cases x with
    | str f =>
      have hf : ¬(f = ("*")) := by
        intro h
        exact hs (Tok.str f) (List.mem_cons_self _ _) (by simp [h])
      cases v <;> simp [resolveToks, selOf, hf, walkGet]
      case dict kvs =>
        cases hd : dictGet kvs f <;> simp [hd, ih hs']
    | int n =>
      cases v <;> simp [resolveToks, selOf, walkGet]
      case list xs =>
        cases hd : pyIdx xs n <;> simp [hd, ih hs']

theorem nestedGet_simple (t : Value) (key : String) (h : simpleKey key = true) :
    nestedGet t key Value.null = (walkGet t (getTokenizedKeypath key)).getD Value.null := by
  have h' := h
  unfold simpleKey at h'
  simp only [Bool.and_eq_true, Bool.not_eq_true'] at h'
  obtain ⟨⟨h1, h2⟩, h3⟩ := h'
  have hs : ∀ x ∈ getTokenizedKeypath key, x ≠ Tok.str ("*") := by
    intro x hx
    have := List.all_eq_true.mp h3 x hx
    simpa using this
  have hraw : nestedGetRaw t key = (walkGet t (getTokenizedKeypath key)).getD Value.null := by
    unfold nestedGetRaw
    simp only [h1, Bool.false_eq_true, if_false, h2, if_true]
    unfold search
    exact resolve_eq_walk _ hs t
  unfold nestedGet
  rw [hraw]
  cases hw : walkGet t (getTokenizedKeypath key) with
  | none => simp
  | some w => cases w <;> simp [mapNull_id]

theorem pyIdx_eq_some (xs : List Value) (n : Int) (c : Value) :
    pyIdx xs n = some c ↔
      0 ≤ pyNorm xs.length n ∧ xs.get? (pyNorm xs.length n).toNat = some c := by
  unfold pyIdx
  split
  · simp_all
  · simp_all

theorem pyIdx_toNat_lt (xs : List Value) (n : Int) (c : Value)
    (h : pyIdx xs n = some c) : (pyNorm xs.length n).toNat < xs.length := by
  obtain ⟨h0, hg⟩ := (pyIdx_eq_some xs n c).mp h
  exact (List.get?_eq_some.mp hg).1

theorem pyIdx_set_self (xs : List Value) (n : Int) (c c' : Value)
    (hd : pyIdx xs n = some c) :
    pyIdx (xs.set (pyNorm xs.length n).toNat c') n = some c' := by
  obtain ⟨h0, hg⟩ := (pyIdx_eq_some xs n c).mp hd
  have hlt : (pyNorm xs.length n).toNat < xs.length := (List.get?_eq_some.mp hg).1
  unfold pyIdx
  rw [show pyNorm (xs.set (pyNorm xs.length n).toNat c').length n = pyNorm xs.length n by
    simp]
  rw [if_pos h0]
  exact List.get?_set_eq_of_lt c' hlt

theorem walkGet_nestedSet (kp : List Tok) (t v t' : Value)
    (h : nestedSet t kp v = Except.ok (some t')) : walkGet t' kp = some v := by
  induction kp generalizing t t' with
  | nil => simp [nestedSet] at h
  | cons k rest ih =>
    cases rest with
    | nil =>
      cases t <;> cases k <;> simp [nestedSet] at h
      case dict.str kvs f =>
        subst h
        simp [walkGet, dictGet_dictSet_self]
      case list.int xs n =>
        cases hset : pySet xs n v with
        | none => simp [hset] at h
        | some ys =>
          simp [hset] at h
          subst h
          unfold pySet at hset
          split at hset
          case isTrue hcond =>
            obtain ⟨h0, h1⟩ := hcond
            simp only [Option.some.injEq] at hset
            subst hset
            have hlt : (pyNorm xs.length n).toNat < xs.length := by omega
            simp only [walkGet]
            rw [show pyIdx (xs.set (pyNorm xs.length n).toNat v) n = some v by
              unfold pyIdx
              rw [show pyNorm (xs.set (pyNorm xs.length n).toNat v).length n =
                    pyNorm xs.length n by simp]
              rw [if_pos h0]
              exact List.get?_set_eq_of_lt v hlt]
          case isFalse => simp at hset
    | cons k2 rest2 =>
      cases t <;> cases k <;> simp [nestedSet] at h
      case dict.str kvs f =>
        cases hd : dictGet kvs f with
        | none => simp [hd] at h
        | some c =>
          cases hrec : nestedSet c (k2 :: rest2) v with
          | error e => simp [hd, hrec] at h
          | ok w =>
            cases w with
            | none => simp [hd, hrec] at h
            | some c' =>
              simp [hd, hrec] at h
              subst h
              simp only [walkGet, dictGet_dictSet_self]
              exact ih c c' hrec
      case list.int xs n =>
        cases hd : pyIdx xs n with
        | none => simp [hd] at h
        | some c =>
          cases hrec : nestedSet c (k2 :: rest2) v with
          | error e => simp [hd, hrec] at h
          | ok w =>
            cases w with
            | none => simp [hd, hrec] at h
            | some c' =>
              simp [hd, hrec] at h
              subst h
              simp only [walkGet, pyIdx_set_self xs n c c' hd]
              exact ih c c' hrec

theorem dictGet_dictSet (kvs : List (String × Value)) (f f' : String) (v : Value) :
    dictGet (dictSet kvs f v) f' = if f' = f then some v else dictGet kvs f' := by
  by_cases h : f' = f
  · subst h; simp [dictGet_dictSet_self]
  · simp [h, dictGet_dictSet_ne kvs f f' v h]

theorem pyIdx_set_lt (xs : List Value) (m : Nat) (hm : m < xs.length) (v : Value)
    (n' : Int) :
    pyIdx (xs.set m v) n' =
      if 0 ≤ pyNorm xs.length n' ∧ (pyNorm xs.length n').toNat = m then some v
      else pyIdx xs n' := by
  unfold pyIdx
  rw [show pyNorm (xs.set m v).length n' = pyNorm xs.length n' by simp]
  by_cases h0 : 0 ≤ pyNorm xs.length n'
  · by_cases heq : (pyNorm xs.length n').toNat = m
    · rw [if_pos h0, if_pos ⟨h0, heq⟩, heq]
      exact List.get?_set_eq_of_lt v hm
    · rw [if_pos h0, if_neg (by intro hc; exact heq hc.2), if_pos h0]
      exact List.get?_set_ne v xs (fun hc => heq hc.symm)
  · simp [h0]

theorem walkGet_after_nestedSet (kp : List Tok) (t v t' : Value)
    (h : nestedSet t kp v = Except.ok (some t')) (q : List Tok) :
    walkGet t' q = walkGet t q ∨
    (∃ q2, walkGet t' q = walkGet v q2) ∨
    (∃ w w', walkGet t q = some w ∧ walkGet t' q = some w' ∧ sameShape w w') := by
  induction kp generalizing t t' q with
  | nil => simp [nestedSet] at h
  | cons k rest ih =>
    cases rest with
    | nil =>
      cases t <;> cases k <;> simp [nestedSet] at h
      case dict.str kvs f =>
        subst h
        cases q with
        | nil =>
          right; right
          exact ⟨_, _, rfl, rfl, Or.inl ⟨_, _, rfl, rfl⟩⟩
        | cons x q' =>
          cases x with
          | str f' =>
            by_cases hf : f' = f
            · subst hf
              right; left
              exact ⟨q', by simp [walkGet, dictGet_dictSet_self]⟩
            · left
              simp [walkGet, dictGet_dictSet_ne kvs f f' v hf]
          | int n' => left; simp [walkGet]
      case list.int xs n =>
        cases hset : pySet xs n v with
        | none => simp [hset] at h
        | some ys =>
          simp [hset] at h
          subst h
          unfold pySet at hset
          split at hset
          case isTrue hcond =>
            obtain ⟨h0, h1⟩ := hcond
            simp only [Option.some.injEq] at hset
            subst hset
            have hm : (pyNorm xs.length n).toNat < xs.length := by omega
            cases q with
            | nil =>
              right; right
              exact ⟨_, _, rfl, rfl, Or.inr ⟨_, _, rfl, rfl⟩⟩
            | cons x q' =>
              cases x with
              | str f' => left; simp [walkGet]
              | int n' =>
                have hidx := pyIdx_set_lt xs (pyNorm xs.length n).toNat hm v n'
                by_cases hc : 0 ≤ pyNorm xs.length n' ∧
                    (pyNorm xs.length n').toNat = (pyNorm xs.length n).toNat
                · rw [if_pos hc] at hidx
                  right; left
                  exact ⟨q', by simp [walkGet, hidx]⟩
                · rw [if_neg hc] at hidx
                  left
                  simp [walkGet, hidx]
          case isFalse => simp at hset
    | cons k2 rest2 =>
      cases t <;> cases k <;> simp [nestedSet] at h
      case dict.str kvs f =>
        cases hd : dictGet kvs f with
        | none => simp [hd] at h
        | some c =>
          cases hrec : nestedSet c (k2 :: rest2) v with
          | error e => simp [hd, hrec] at h
          | ok w =>
            cases w with
            | none => simp [hd, hrec] at h
            | some c' =>
              simp [hd, hrec] at h
              subst h
              cases q with
              | nil =>
                right; right
                exact ⟨_, _, rfl, rfl, Or.inl ⟨_, _, rfl, rfl⟩⟩
              | cons x q' =>
                cases x with
                | str f' =>
                  by_cases hf : f' = f
                  · rw [show walkGet (Value.dict (dictSet kvs f c')) (Tok.str f' :: q') =
                          walkGet c' q' by simp [walkGet, dictGet_dictSet, hf]]
                    rw [show walkGet (Value.dict kvs) (Tok.str f' :: q') =
                          walkGet c q' by simp [walkGet, hf, hd]]
                    exact ih c c' hrec q'
                  · left
                    simp [walkGet, dictGet_dictSet_ne kvs f f' c' hf]
                | int n' => left; simp [walkGet]
      case list.int xs n =>
        cases hd : pyIdx xs n with
        | none => simp [hd] at h
        | some c =>
          cases hrec : nestedSet c (k2 :: rest2) v with
          | error e => simp [hd, hrec] at h
          | ok w =>
            cases w with
            | none => simp [hd, hrec] at h
            | some c' =>
              simp [hd, hrec] at h
              subst h
              have hm : (pyNorm xs.length n).toNat < xs.length := pyIdx_toNat_lt xs n c hd
              cases q with
              | nil =>
                right; right
                exact ⟨_, _, rfl, rfl, Or.inr ⟨_, _, rfl, rfl⟩⟩
              | cons x q' =>
                cases x with
                | str f' => left; simp [walkGet]
                | int n' =>
                  have hidx := pyIdx_set_lt xs (pyNorm xs.length n).toNat hm c' n'
                  by_cases hc : 0 ≤ pyNorm xs.length n' ∧
                      (pyNorm xs.length n').toNat = (pyNorm xs.length n).toNat
                  · rw [if_pos hc] at hidx
                    have hsame : pyIdx xs n' = some c := by
                      obtain ⟨hcl, hcr⟩ := hc
                      obtain ⟨hd0, hdg⟩ := (pyIdx_eq_some xs n c).mp hd
                      unfold pyIdx
                      rw [if_pos hcl, hcr]
                      exact hdg
                    have hw' : walkGet (Value.list (xs.set (pyNorm xs.length n).toNat c'))
                        (Tok.int n' :: q') = walkGet c' q' := by simp [walkGet, hidx]
                    have hwt : walkGet (Value.list xs) (Tok.int n' :: q') =
                        walkGet c q' := by simp [walkGet, hsame]
                    rw [hw', hwt]
                    exact ih c c' hrec q'
                  · rw [if_neg hc] at hidx
                    left
                    simp [walkGet, hidx]

theorem plainKeepPayloads_nestedSet (kp : List Tok) (t v t' : Value)
    (hS : plainKeepPayloads t) (hv : keepFreeAt v)
    (h : nestedSet t kp v = Except.ok (some t')) : plainKeepPayloads t' := by
  intro q p hq
  rcases walkGet_after_nestedSet kp t v t' h q with h1 | ⟨q2, h2⟩ | ⟨w, w', hw, hw', hsh⟩
  · rw [h1] at hq
    exact hS q p hq
  · rw [h2] at hq
    exact absurd hq (hv q2 p)
  · rw [hw'] at hq
    simp only [Option.some.injEq] at hq
    subst hq
    rcases hsh with ⟨kvs, kvs', hw1, hw2⟩ | ⟨xs, xs', hw1, hw2⟩ <;> simp at hw2

theorem notKeepAt_nestedSet (kp : List Tok) (t v t' : Value) (q : List Tok)
    (hn : ∀ p, walkGet t q ≠ some (Value.keep p)) (hv : keepFreeAt v)
    (h : nestedSet t kp v = Except.ok (some t')) :
    ∀ p, walkGet t' q ≠ some (Value.keep p) := by
  intro p hq
  rcases walkGet_after_nestedSet kp t v t' h q with h1 | ⟨q2, h2⟩ | ⟨w, w', hw, hw', hsh⟩
  · rw [h1] at hq
    exact hn p hq
  · rw [h2] at hq
    exact absurd hq (hv q2 p)
  · rw [hw'] at hq
    simp only [Option.some.injEq] at hq
    subst hq
    rcases hsh with ⟨kvs, kvs', hw1, hw2⟩ | ⟨xs, xs', hw1, hw2⟩ <;> simp at hw2

theorem nestedGet_keep_walk (t : Value) (k : String) (payload : Value)
    (hsk : simpleKey k = true)
    (hcur : nestedGet t k Value.null = Value.keep payload) :
    walkGet t (getTokenizedKeypath k) = some (Value.keep payload) := by
  rw [nestedGet_simple t k hsk] at hcur
  cases hw : walkGet t (getTokenizedKeypath k) with
  | none => rw [hw] at hcur; simp at hcur
  | some w => rw [hw] at hcur; simp at hcur; rw [hcur]

theorem goImpute_none (ks : List String) : goImpute none ks = Except.ok none := by
  induction ks with
  | nil => simp [goImpute]
  | cons k rest ih => simp [goImpute, ih]

theorem goImpute_preserve (ks : List String) (t t' : Value)
    (hks : ∀ k ∈ ks, simpleKey k = true) (hS : plainKeepPayloads t)
    (h : goImpute (some t) ks = Except.ok (some t')) :
    plainKeepPayloads t' ∧
      (∀ q, (∀ p, walkGet t q ≠ some (Value.keep p)) →
        ∀ p, walkGet t' q ≠ some (Value.keep p)) := by
  induction ks generalizing t with
  | nil =>
    simp [goImpute] at h
    subst h
    exact ⟨hS, fun q hq => hq⟩
  | cons k rest ih =>
    have hk : simpleKey k = true := hks k (List.mem_cons_self _ _)
    have hrest : ∀ k' ∈ rest, simpleKey k' = true :=
      fun k' hk' => hks k' (List.mem_cons_of_mem _ hk')
    simp only [goImpute] at h
    cases hcur : nestedGet t k Value.null
    case keep payload =>
      have hwk : walkGet t (getTokenizedKeypath k) = some (Value.keep payload) :=
        nestedGet_keep_walk t k payload hk hcur
      have hpl : keepFreeAt payload := hS _ _ hwk
      cases hset : nestedSet t (getTokenizedKeypath k) payload with
      | error e => simp [hcur, hset] at h
      | ok w =>
        cases w with
        | none => simp [hcur, hset, goImpute_none] at h
        | some t2 =>
          simp only [hcur, hset] at h
          have hS2 : plainKeepPayloads t2 :=
            plainKeepPayloads_nestedSet _ t payload t2 hS hpl hset
          obtain ⟨hS', hpres⟩ := ih t2 hrest hS2 h
          refine ⟨hS', fun q hq => hpres q ?_⟩
          exact notKeepAt_nestedSet _ t payload t2 q hq hpl hset
    all_goals
      simp only [hcur] at h
      exact ih t hrest hS h

theorem goImpute_idem (ks : List String) (t t' : Value)
    (hks : ∀ k ∈ ks, simpleKey k = true) (hS : plainKeepPayloads t)
    (h : goImpute (some t) ks = Except.ok (some t')) :
    goImpute (some t') ks = Except.ok (some t') := by
  induction ks generalizing t with
  | nil =>
    simp [goImpute] at h
    subst h
    simp [goImpute]
  | cons k rest ih =>
    have hk : simpleKey k = true := hks k (List.mem_cons_self _ _)
    have hrest : ∀ k' ∈ rest, simpleKey k' = true :=
      fun k' hk' => hks k' (List.mem_cons_of_mem _ hk')
    simp only [goImpute] at h ⊢
    cases hcur : nestedGet t k Value.null
    case keep payload =>
      have hwk : walkGet t (getTokenizedKeypath k) = some (Value.keep payload) :=
        nestedGet_keep_walk t k payload hk hcur
      have hpl : keepFreeAt payload := hS _ _ hwk
      cases hset : nestedSet t (getTokenizedKeypath k) payload with
      | error e => simp [hcur, hset] at h
      | ok w =>
        cases w with
        | none => simp [hcur, hset, goImpute_none] at h
        | some t2 =>
          simp only [hcur, hset] at h
          have hS2 : plainKeepPayloads t2 :=
            plainKeepPayloads_nestedSet _ t payload t2 hS hpl hset
          have hwk2 : walkGet t2 (getTokenizedKeypath k) = some payload :=
            walkGet_nestedSet _ t payload t2 hset
          have hnk2 : ∀ p, walkGet t2 (getTokenizedKeypath k) ≠ some (Value.keep p) := by
            intro p hc
            rw [hwk2] at hc
            simp only [Option.some.injEq] at hc
            exact hpl [] p (by simp [walkGet, hc])
          have hnk' : ∀ p, walkGet t' (getTokenizedKeypath k) ≠ some (Value.keep p) :=
            (goImpute_preserve rest t2 t' hrest hS2 h).2 _ hnk2
          cases hc2 : nestedGet t' k Value.null
          case keep pl =>
            exact absurd (nestedGet_keep_walk t' k pl hk hc2) (hnk' pl)
          all_goals
            simp only [hc2]
            exact ih t2 hrest hS2 h
    all_goals
      simp only [hcur] at h
      have hnk : ∀ p, walkGet t (getTokenizedKeypath k) ≠ some (Value.keep p) := by
        intro p hc
        have hx := nestedGet_simple t k hk
        rw [hc] at hx
        simp at hx
        rw [hx] at hcur
        simp at hcur
      have hnk' : ∀ p, walkGet t' (getTokenizedKeypath k) ≠ some (Value.keep p) :=
        (goImpute_preserve rest t t' hrest hS h).2 _ hnk
      cases hc2 : nestedGet t' k Value.null
      case keep pl =>
        exact absurd (nestedGet_keep_walk t' k pl hk hc2) (hnk' pl)
      all_goals
        simp only [hc2]
        exact ih t hrest hS h

theorem goDrop_skip_falsy (res : Value) (seen : List (List Tok)) (key : String)
    (rest : List String) (hmem : getTokenizedKeypath key ∉ seen)
    (hf : truthy (nestedGet res key Value.null) = false) :
    goDrop res seen (key :: rest) = goDrop res seen rest := by
  simp [goDrop, hmem, hf]

theorem goDrop_skip_mem (res : Value) (seen : List (List Tok)) (key : String)
    (rest : List String) (hmem : getTokenizedKeypath key ∈ seen) :
    goDrop res seen (key :: rest) = goDrop res seen rest := by
  simp [goDrop, hmem]

theorem walkGet_null_cons (x : Tok) (r : List Tok) : walkGet Value.null (x :: r) = none := by
  cases x <;> rfl

/-- C6: when two simple path strings (no wildcard or group selectors, the
form the orchestrator emits) tokenize to the same path, pruning both is
observably the same as pruning the first alone: the location is pruned
exactly once and the duplicate is silently skipped. -/
theorem claim_C6 (T : Value) (p q : String) (hp : simpleKey p = true)
    (hq : simpleKey q = true)
    (htok : getTokenizedKeypath p = getTokenizedKeypath q) :
    dropKeys T [p, q] = dropKeys T [p] := by
  unfold dropKeys
  have hres : nestedGet T q Value.null = nestedGet T p Value.null := by
    rw [nestedGet_simple T q hq, nestedGet_simple T p hp, htok]
  cases htr : truthy (nestedGet T p Value.null) with
  | false =>
    rw [goDrop_skip_falsy T [] p [q] (by simp) htr,
        goDrop_skip_falsy T [] p [] (by simp) htr,
        goDrop_skip_falsy T [] q [] (by simp) (by rw [hres]; exact htr)]
  | true =>
    cases hv : nestedGet T p Value.null
    case null => rw [hv] at htr; simp [truthy] at htr
    case drop lvl =>
      by_cases hrange : 0 < lvl ∨ ((getTokenizedKeypath p).length : Int) < -lvl
      · simp [goDrop, hv, hres, hrange, truthy]
      · by_cases hemp : pyTakeSlice (getTokenizedKeypath p) lvl = []
        · simp [goDrop, hv, hres, hrange, hemp, ← htok, truthy]
        · have hlvl0 : lvl < 0 := by
            by_contra hc
            push_neg at hc
            rcases (by omega : lvl = 0 ∨ 0 < lvl) with h0 | h0
            · subst h0
              unfold pyTakeSlice at hemp
              simp at hemp
            · exact hrange (Or.inl h0)
          have hlen : -lvl ≤ ((getTokenizedKeypath p).length : Int) := by
            push_neg at hrange
            exact hrange.2
          have hkp' : pyTakeSlice (getTokenizedKeypath p) lvl =
              (getTokenizedKeypath p).take
                (((getTokenizedKeypath p).length : Int) + lvl).toNat := by
            unfold pyTakeSlice
            rw [if_neg (by omega)]
          have hlenlt : (pyTakeSlice (getTokenizedKeypath p) lvl).length <
              (getTokenizedKeypath p).length := by
            rw [hkp', List.length_take]
            omega
          have hne : getTokenizedKeypath p ≠ pyTakeSlice (getTokenizedKeypath p) lvl := by
            intro hc
            rw [← hc] at hlenlt
            omega
          cases hset : nestedSet T (pyTakeSlice (getTokenizedKeypath p) lvl) Value.null with
          | error e => simp [goDrop, hv, hres, hrange, hemp, ← htok, truthy, hset]
          | ok w =>
            cases w with
            | none =>
              simp [goDrop, hv, hres, hrange, hemp, ← htok, truthy, hset,
                hne, List.mem_singleton]
            | some t =>
              have hfalsy : truthy (nestedGet t q Value.null) = false := by
                rw [nestedGet_simple t q hq, ← htok]
                have hmle : (((getTokenizedKeypath p).length : Int) + lvl).toNat ≤
                    (getTokenizedKeypath p).length := by omega
                have hsplit : getTokenizedKeypath p =
                    pyTakeSlice (getTokenizedKeypath p) lvl ++
                      (getTokenizedKeypath p).drop
                        (pyTakeSlice (getTokenizedKeypath p) lvl).length := by
                  rw [hkp', List.length_take, Nat.min_eq_left hmle]
                  exact (List.take_append_drop _ _).symm
                rw [hsplit, walkGet_append,
                    walkGet_nestedSet _ T Value.null t hset]
                have hdrop : (getTokenizedKeypath p).drop
                    (pyTakeSlice (getTokenizedKeypath p) lvl).length ≠ [] := by
                  intro hc
                  have hd0 := congrArg List.length hc
                  simp only [List.length_drop, List.length_nil] at hd0
                  omega
                cases hd : (getTokenizedKeypath p).drop
                    (pyTakeSlice (getTokenizedKeypath p) lvl).length with
                | nil => exact absurd hd hdrop
                | cons x r =>
                  simp [walkGet_null_cons, truthy]
              simp only [truthy] at hfalsy
              simp [goDrop, hv, hres, hrange, hemp, ← htok, truthy, hset,
                hne, List.mem_singleton, hfalsy]
    all_goals
      rw [hv] at htr
      cases hset : nestedSet T (getTokenizedKeypath p) Value.null with
      | error e => simp [goDrop, hv, hres, htr, hset]
      | ok w =>
        cases w with
        | none => simp [goDrop, hv, hres, htr, hset, ← htok]
        | some t => simp [goDrop, hv, hres, htr, hset, ← htok]

theorem applyChain_cons_error (key : String) (v : Value) (f : ApplyFn)
    (fs : List ApplyFn) (e : String) (hf : f.fn v = Except.error e) :
    applyChain key v (f :: fs) = Except.error ⟨f.name, v, key, e⟩ := by
  simp [applyChain, hf]

theorem applyChain_cons_null (key : String) (v : Value) (f : ApplyFn)
    (fs : List ApplyFn) (hf : f.fn v = Except.ok Value.null) :
    applyChain key v (f :: fs) = Except.ok Value.null := by
  simp [applyChain, hf]

theorem applyChain_cons_ok (key : String) (v r : Value) (f : ApplyFn)
    (fs : List ApplyFn) (hf : f.fn v = Except.ok r) (hr : r ≠ Value.null) :
    applyChain key v (f :: fs) = applyChain key r fs := by
  cases r
  case null => exact absurd rfl hr
  all_goals simp [applyChain, hf]

theorem applyChain_ok_extend (key : String) (fs1 : List ApplyFn) (v w : Value)
    (h : applyChain key v fs1 = Except.ok w) (hw : w ≠ Value.null)
    (rest : List ApplyFn) :
    applyChain key v (fs1 ++ rest) = applyChain key w rest := by
  induction fs1 generalizing v with
  | nil =>
    simp [applyChain] at h
    subst h
    rfl
  | cons f fs1 ih =>
    rw [List.cons_append]
    cases hf : f.fn v with
    | error e =>
      rw [applyChain_cons_error key v f fs1 e hf] at h
      simp at h
    | ok r =>
      cases r
      case null =>
        rw [applyChain_cons_null key v f fs1 hf] at h
        simp at h
        exact absurd h.symm hw
      all_goals
        rw [applyChain_cons_ok key v _ f fs1 hf (by simp)] at h
        rw [applyChain_cons_ok key v _ f (fs1 ++ rest) hf (by simp)]
        exact ih _ h

theorem applyChain_break (key : String) (fs1 : List ApplyFn) (v : Value)
    (hv : v ≠ Value.null) (h : applyChain key v fs1 = Except.ok Value.null)
    (rest : List ApplyFn) :
    applyChain key v (fs1 ++ rest) = Except.ok Value.null := by
  induction fs1 generalizing v with
  | nil =>
    simp [applyChain] at h
    exact absurd h hv
  | cons f fs1 ih =>
    rw [List.cons_append]
    cases hf : f.fn v with
    | error e =>
      rw [applyChain_cons_error key v f fs1 e hf] at h
      simp at h
    | ok r =>
      cases r
      case null => exact applyChain_cons_null key v f (fs1 ++ rest) hf
      all_goals
        rw [applyChain_cons_ok key v _ f fs1 hf (by simp)] at h
        rw [applyChain_cons_ok key v _ f (fs1 ++ rest) hf (by simp)]
        exact ih _ (by simp) h

theorem nestedSet_oor (kp : List Tok) (s v : Value) (h : hitsOOR s kp = true) :
    nestedSet s kp v = Except.ok none := by
  induction kp generalizing s with
  | nil => rfl
  | cons k rest ih =>
    cases rest with
    | nil =>
      cases s <;> cases k <;> simp [hitsOOR] at h
      case list.int xs n =>
        simp only [nestedSet]
        unfold pySet
        rw [if_neg (by omega)]
    | cons k2 rest2 =>
      cases s <;> cases k <;> simp [hitsOOR] at h
      case dict.str kvs f =>
        cases hd : dictGet kvs f with
        | none => rw [hd] at h; simp at h
        | some c =>
          rw [hd] at h
          simp at h
          simp [nestedSet, hd, ih c h]
      case list.int xs n =>
        cases hd : pyIdx xs n with
        | none => simp [nestedSet, hd]
        | some c =>
          rw [hd] at h
          simp at h
          simp [nestedSet, hd, ih c h]

theorem nestedGet_miss (source : Value) (key : String) (dflt : Value)
    (hmiss : nestedGetRaw source key = Value.null) :
    nestedGet source key dflt = dflt := by
  unfold nestedGet
  rw [hmiss]

theorem goImpute_nokeep (ks : List String) (t : Value)
    (h : ∀ k ∈ ks, ∀ pl, nestedGet t k Value.null ≠ Value.keep pl) :
    goImpute (some t) ks = Except.ok (some t) := by
  induction ks with
  | nil => rfl
  | cons k rest ih =>
    cases hcur : nestedGet t k Value.null
    case keep pl => exact absurd hcur (h k (List.mem_cons_self _ _) pl)
    all_goals
      simp only [goImpute, hcur]
      exact ih (fun k' hk' pl => h k' (List.mem_cons_of_mem _ hk') pl)

theorem get_apply_reduce (kvs : List (String × Value)) (key : String) (dflt : Value)
    (fns : List ApplyFn)
    (hres : nestedGet (Value.dict kvs) key dflt ≠ Value.null) (hfns : fns ≠ []) :
    Pydian.get (Value.dict kvs) key dflt fns none none false =
      match applyChain key (nestedGet (Value.dict kvs) key dflt) fns with
      | Except.error er => Except.error er
      | Except.ok r => Except.ok r := by
  cases fns with
  | nil => exact absurd rfl hfns
  | cons g gs =>
    unfold Pydian.get
    simp only [wrapSrc]
    cases hres0 : nestedGet (Value.dict kvs) key dflt
    case null => exact absurd hres0 hres
    all_goals
      simp only [hres0, if_false, List.isEmpty_cons, Bool.false_eq_true]

/-- C1: for every tree, every path that does not exist in it (its raw
resolution is null), and every default, `get` with no `drop_level` (and
default `apply`, `only_if`, `flatten` arguments) returns the default and
never raises: the result is `Except.ok` of the default. -/
theorem claim_C1 (source : Value) (key : String) (D : Value)
    (hmiss : nestedGetRaw (wrapSrc source key).1 (wrapSrc source key).2 = Value.null) :
    Pydian.get source key D [] none none false = Except.ok D := by
  cases D <;> simp [Pydian.get, nestedGet_miss _ _ _ hmiss]

/-- C1 witness: a concrete missing path resolves to the default. -/
theorem claim_C1_witness :
    Pydian.get (Value.dict [(("a"), Value.int 1)]) ("b") (Value.int 7) [] none none
      false = Except.ok (Value.int 7) :=
  claim_C1 _ _ _ (by rfl)

/-- C3: `_nested_set` on any source, tokenized path and value either
returns the updated root with the value readable at that path (success is
never partial), or, whenever the walk or the final assignment hits an
out-of-range sequence index, returns `Except.ok none` (Python `None`,
IndexError caught): no exception propagates for the out-of-range case. -/
theorem claim_C3 (s : Value) (kp : List Tok) (v : Value) :
    (hitsOOR s kp = true → nestedSet s kp v = Except.ok none) ∧
    (∀ t, nestedSet s kp v = Except.ok (some t) → walkGet t kp = some v) :=
  ⟨fun h => nestedSet_oor kp s v h, fun t h => walkGet_nestedSet kp s v t h⟩

/-- C3 witness: an out-of-range intermediate index yields no-change and no
exception, and a successful set leaves the value at the path. -/
theorem claim_C3_witness :
    nestedSet (Value.dict [(("a"), Value.list [Value.int 1])])
      [Tok.str ("a"), Tok.int 5, Tok.str ("b")] (Value.int 9) = Except.ok none ∧
    walkGet (Value.dict [(("a"), Value.list [Value.int 9])])
      [Tok.str ("a"), Tok.int 0] = some (Value.int 9) :=
  ⟨(claim_C3 (Value.dict [(("a"), Value.list [Value.int 1])])
      [Tok.str ("a"), Tok.int 5, Tok.str ("b")] (Value.int 9)).1 (by rfl),
   (claim_C3 (Value.dict [(("a"), Value.list [Value.int 1])])
      [Tok.str ("a"), Tok.int 0] (Value.int 9)).2
      (Value.dict [(("a"), Value.list [Value.int 9])]) (by rfl)⟩

/-- C4: in a prune pass, a DROP directive whose level is positive or is
`-(depth+1)` for a path of depth `depth` fails fast with the structural
RuntimeError, and a directive with level exactly `-depth` collapses the
whole tree to the empty mapping. -/
theorem claim_C4 (T : Value) (key : String) (lvl : Int)
    (hv : nestedGet T key Value.null = Value.drop lvl) :
    ((0 < lvl ∨ lvl = -(((getTokenizedKeypath key).length : Int) + 1)) →
      dropKeys T [key] = Except.error (dropLevelErrorMsg lvl key)) ∧
    (lvl = -((getTokenizedKeypath key).length : Int) →
      dropKeys T [key] = Except.ok (Value.dict [])) := by
  constructor
  · intro hr
    have hcond : 0 < lvl ∨ ((getTokenizedKeypath key).length : Int) < -lvl := by
      rcases hr with h | h
      · exact Or.inl h
      · right; omega
    simp [dropKeys, goDrop, hv, truthy, hcond]
  · intro hr
    have hcond : ¬(0 < lvl ∨ ((getTokenizedKeypath key).length : Int) < -lvl) := by
      omega
    have hemp : pyTakeSlice (getTokenizedKeypath key) lvl = [] := by
      unfold pyTakeSlice
      split
      · rw [show lvl.toNat = 0 by omega]
        exact List.take_zero _
      · rw [show (((getTokenizedKeypath key).length : Int) + lvl).toNat = 0 by omega]
        exact List.take_zero _
    simp [dropKeys, goDrop, hv, truthy, hcond, hemp]

/-- C4 witness: a positive level fails fast; level `-depth` collapses the
tree to the empty mapping. -/
theorem claim_C4_witness :
    dropKeys (Value.dict [(("a"), Value.drop 1)]) [("a")] =
      Except.error (dropLevelErrorMsg 1 ("a")) ∧
    dropKeys (Value.dict [(("a"), Value.drop (-1))]) [("a")] =
      Except.ok (Value.dict []) :=
  ⟨(claim_C4 (Value.dict [(("a"), Value.drop 1)]) ("a") 1 (by rfl)).1
      (Or.inl (by norm_num)),
   (claim_C4 (Value.dict [(("a"), Value.drop (-1))]) ("a") (-1) (by rfl)).2
      (by decide)⟩

/-- C5: evaluation of `drop_keys` at the failing input for the level-0
boundary.  A DROP directive of level 0 is supposed to delete only the
leaf, but `curr_keypath[:0]` is the empty path, so the code collapses the
whole tree to the empty mapping instead of producing
`{"a": {"b": null}}`; the level `-1` half behaves as documented, nulling
the leaf's parent entry. -/
theorem claim_C5 :
    dropKeys (Value.dict [(("a"), Value.dict [(("b"), Value.drop 0)])]) [("a.b")] =
      Except.ok (Value.dict []) ∧
    dropKeys (Value.dict [(("a"), Value.dict [(("b"), Value.drop (-1))])]) [("a.b")] =
      Except.ok (Value.dict [(("a"), Value.null)]) :=
  ⟨rfl, rfl⟩

/-- C8: evaluation of the marker-collection walk at the failing input.  A
relative-pruning marker that occurs directly as an element of a sequence
is never collected, because the sequence branch tests `isinstance(v, ROL)`
on the sequence `v` instead of the element `item`; a marker sitting at a
mapping leaf is collected. -/
theorem claim_C8 :
    getKeysToDropSet (Value.dict [(("a"), Value.list [Value.drop (-1)])]) ("") = [] ∧
    getKeysToDropSet (Value.dict [(("a"), Value.drop (-1))]) ("") = [("a")] := by
  constructor <;> rfl

/-- C10: a requested key whose current resolution is falsy (null, 0,
False, empty string, empty mapping or empty sequence) is skipped entirely
by the `drop_keys` loop: the tree is unchanged for that key and the
tokenized path is not added to the seen set, so it does not participate
in duplicate-skipping. -/
theorem claim_C10 (res : Value) (seen : List (List Tok)) (key : String)
    (rest : List String) (hmem : getTokenizedKeypath key ∉ seen)
    (hf : truthy (nestedGet res key Value.null) = false) :
    goDrop res seen (key :: rest) = goDrop res seen rest :=
  goDrop_skip_falsy res seen key rest hmem hf

/-- C10 witness: a key resolving to the falsy value 0 leaves the state
untouched. -/
theorem claim_C10_witness :
    goDrop (Value.dict [(("a"), Value.int 0)]) [] [("a")] =
      goDrop (Value.dict [(("a"), Value.int 0)]) [] [] :=
  claim_C10 (Value.dict [(("a"), Value.int 0)]) [] ("a") [] (by simp) (by rfl)

/-- C6 witness: `a.b` and `a[b]` are different spellings of the same
tokenized path and are pruned once. -/
theorem claim_C6_witness :
    dropKeys (Value.dict [(("a"), Value.dict [(("b"), Value.int 1)])])
      [("a.b"), ("a[b]")] =
    dropKeys (Value.dict [(("a"), Value.dict [(("b"), Value.int 1)])]) [("a.b")] :=
  claim_C6 (Value.dict [(("a"), Value.dict [(("b"), Value.int 1)])]) ("a.b") ("a[b]")
    (by decide) (by decide) (by decide)

/-- C7: in the `apply` chain of `get`, a caller-supplied function that
raises makes `get` re-raise a single error carrying the function's
identity, the offending value and the key; and once an intermediate
function returns null, the chain stops: the functions after it never
influence the result. -/
theorem claim_C7 (kvs : List (String × Value)) (key : String) (dflt : Value)
    (fs1 fs2 : List ApplyFn) (f : ApplyFn) (w : Value) (e : String) :
    (nestedGet (Value.dict kvs) key dflt ≠ Value.null →
      applyChain key (nestedGet (Value.dict kvs) key dflt) fs1 = Except.ok w →
      w ≠ Value.null → f.fn w = Except.error e →
      Pydian.get (Value.dict kvs) key dflt (fs1 ++ f :: fs2) none none false =
        Except.error ⟨f.name, w, key, e⟩) ∧
    (nestedGet (Value.dict kvs) key dflt ≠ Value.null →
      applyChain key (nestedGet (Value.dict kvs) key dflt) fs1 =
        Except.ok Value.null →
      Pydian.get (Value.dict kvs) key dflt (fs1 ++ fs2) none none false =
        Pydian.get (Value.dict kvs) key dflt fs1 none none false) := by
  constructor
  · intro hres hchain hw hf
    rw [get_apply_reduce kvs key dflt (fs1 ++ f :: fs2) hres (by simp)]
    rw [applyChain_ok_extend key fs1 _ w hchain hw (f :: fs2)]
    rw [applyChain_cons_error key w f fs2 e hf]
  · intro hres hchain
    cases fs1 with
    | nil =>
      simp [applyChain] at hchain
      exact absurd hchain hres
    | cons g gs =>
      rw [get_apply_reduce kvs key dflt ((g :: gs) ++ fs2) hres (by simp),
          get_apply_reduce kvs key dflt (g :: gs) hres (by simp)]
      rw [applyChain_break key (g :: gs) _ hres hchain fs2, hchain]

/-- C7 witness: a raising `apply` function is wrapped into a single error
naming the function, the value and the key; a null intermediate result
makes later functions irrelevant. -/
theorem claim_C7_witness :
    Pydian.get (Value.dict [(("a"), Value.int 1)]) ("a") Value.null
      [⟨("boom"), fun _ => Except.error ("oops")⟩] none none false =
      Except.error ⟨("boom"), Value.int 1, ("a"), ("oops")⟩ ∧
    Pydian.get (Value.dict [(("a"), Value.int 1)]) ("a") Value.null
      [⟨("tonull"), fun _ => Except.ok Value.null⟩,
       ⟨("boom"), fun _ => Except.error ("oops")⟩] none none false =
    Pydian.get (Value.dict [(("a"), Value.int 1)]) ("a") Value.null
      [⟨("tonull"), fun _ => Except.ok Value.null⟩] none none false :=
  ⟨(claim_C7 [(("a"), Value.int 1)] ("a") Value.null [] []
      ⟨("boom"), fun _ => Except.error ("oops")⟩ (Value.int 1) ("oops")).1
      (fun h => Value.noConfusion h) (by rfl) (fun h => Value.noConfusion h) (by rfl),
   (claim_C7 [(("a"), Value.int 1)] ("a") Value.null
      [⟨("tonull"), fun _ => Except.ok Value.null⟩]
      [⟨("boom"), fun _ => Except.error ("oops")⟩]
      ⟨("boom"), fun _ => Except.error ("oops")⟩ Value.null ("")).2
      (fun h => Value.noConfusion h) (by rfl)⟩

/-- C9: literal imputation is idempotent, only substitutes and never
deletes: over simple keys, when every reachable KEEP wrapper holds a
keep-free literal payload, imputing and re-imputing agree; and when no
candidate key resolves to a KEEP wrapper, the pass returns the tree
unchanged. -/
theorem claim_C9 (t : Value) (ks : List String) :
    ((∀ k ∈ ks, simpleKey k = true) → plainKeepPayloads t →
      ∀ t', imputeEnumValues t ks = Except.ok (some t') →
        imputeEnumValues t' ks = Except.ok (some t')) ∧
    ((∀ k ∈ ks, ∀ pl, nestedGet t k Value.null ≠ Value.keep pl) →
      imputeEnumValues t ks = Except.ok (some t)) :=
  ⟨fun hks hS t' h => goImpute_idem ks t t' hks hS h,
   fun h => goImpute_nokeep ks t h⟩

/-- C9 witness: imputing a concrete KEEP wrapper and re-imputing the
result is a no-op. -/
theorem claim_C9_witness :
    imputeEnumValues (Value.dict [(("a"), Value.int 5)]) [("a")] =
      Except.ok (some (Value.dict [(("a"), Value.int 5)])) := by
  have hS : plainKeepPayloads (Value.dict [(("a"), Value.keep (Value.int 5))]) := by
    intro q p hq
    cases q with
    | nil => simp [walkGet] at hq
    | cons x q' =>
      cases x with
      | int n => simp [walkGet] at hq
      | str f =>
        by_cases hfa : ("a") = f
        · subst hfa
          cases q' with
          | nil =>
            simp [walkGet, dictGet] at hq
            subst hq
            intro q2 p2 h2
            cases q2 with
            | nil => simp [walkGet] at h2
            | cons y q3 => cases y <;> simp [walkGet] at h2
          | cons y q2 =>
            cases y <;> simp [walkGet, dictGet] at hq
        · simp [walkGet, dictGet, hfa] at hq
  exact (claim_C9 (Value.dict [(("a"), Value.keep (Value.int 5))]) [("a")]).1
    (by decide) hS (Value.dict [(("a"), Value.int 5)]) (by rfl)

/-- C2: for a sequence field `l`, `get(T, "l[*].x", default=D)` returns a
sequence of the same length and order as `l` whose i-th entry is element
i's value at `x` when present and non-null, and `D` when the element
lacks `x` (or is not a mapping, or stores null there, absence and null
being conflated by resolution). -/
theorem claim_C2 (kvs : List (String × Value)) (es : List Value) (D : Value)
    (hl : dictGet kvs ("l") = some (Value.list es)) :
    Pydian.get (Value.dict kvs) ("l[*].x") D [] none none false =
      Except.ok (Value.list (es.map (fun e =>
        match e with
        | Value.dict kvs2 =>
          (match dictGet kvs2 ("x") with
           | some v => (match v with | Value.null => D | v => v)
           | none => D)
        | _ => D))) := by
  have hraw : nestedGetRaw (Value.dict kvs) ("l[*].x") =
      Value.list (es.map (fun e => resolveToks e [Sel.field ("x")])) := by
    unfold nestedGetRaw
    simp only [show endsWithStar ("l[*].x") = false from by decide,
      show hasChar ('(') ("l[*].x") = false from by decide,
      Bool.false_eq_true, if_false, Bool.false_and]
    unfold search
    rw [show (getTokenizedKeypath ("l[*].x")).map selOf =
          [Sel.field ("l"), Sel.wildcard, Sel.field ("x")] by decide]
    simp [resolveToks, hl]
  have hfn : (fun e => match resolveToks e [Sel.field ("x")] with
        | Value.null => D
        | r => r) =
      (fun e => match e with
        | Value.dict kvs2 =>
          (match dictGet kvs2 ("x") with
           | some v => (match v with | Value.null => D | v => v)
           | none => D)
        | _ => D) := by
    funext ev
    cases ev <;> simp [resolveToks]
    case dict kvs2 =>
      cases hx : dictGet kvs2 ("x") with
      | none => simp
      | some v => cases v <;> simp
  have hget : nestedGet (Value.dict kvs) ("l[*].x") D =
      Value.list (es.map (fun e =>
        match e with
        | Value.dict kvs2 =>
          (match dictGet kvs2 ("x") with
           | some v => (match v with | Value.null => D | v => v)
           | none => D)
        | _ => D)) := by
    unfold nestedGet
    rw [hraw]
    simp only [List.map_map]
    congr 1
    rw [← hfn]
    rfl
  simp [Pydian.get, wrapSrc, hget]

/-- C2 witness: a two-element sequence where the second element lacks `x`
resolves to the per-element values with the default in place of the
miss. -/
theorem claim_C2_witness :
    Pydian.get (Value.dict [(("l"), Value.list
        [Value.dict [(("x"), Value.int 1)], Value.dict [(("y"), Value.int 2)]])])
      ("l[*].x") (Value.int 9) [] none none false =
      Except.ok (Value.list [Value.int 1, Value.int 9]) := by
  have h := claim_C2 [(("l"), Value.list
      [Value.dict [(("x"), Value.int 1)], Value.dict [(("y"), Value.int 2)]])]
    [Value.dict [(("x"), Value.int 1)], Value.dict [(("y"), Value.int 2)]]
    (Value.int 9) (by rfl)
  exact h.trans (by rfl)
